import Mathlib

/-!
Shallow embedding of the Hummock SST `TableBuilder`
(`src/rust/server/src/storage/hummock/table/builder.rs`) and proofs of the
specified properties of its block format and builder state machine.

Modelling conventions:
* byte strings (`Bytes`, `BytesMut`, `&[u8]`, `Vec<u8>`) are `List Nat`, each
  element a byte value;
* machine integers (`u16`, `u32`, `usize`) are `Nat`; a `mod 2 ^ w` is applied
  exactly where the source narrows a value (the `as uNN` casts inside the
  byte-encoding helpers).  Buffer lengths are unbounded here, so the source's
  `usize`/`u32` overflow guard assertions (which protect casts that cannot
  lose information in this model) have no effect and are not modelled; the
  two `u16` range assertions in `add`, which guard real truncation of the
  header fields, are modelled;
* a Rust `assert!` failure (panic) is `Option.none`: every operation that can
  panic returns an `Option`;
* `f64` option `bloom_false_positive` is represented exactly as `Rat`; it is
  only ever compared against zero.

Helpers of the repository that are not part of the builder source file
(`bytes_diff`, `crc32_checksum`, the protobuf `Checksum` message encoding,
`HummockValue`, `user_key`, farmhash and the bloom filter) are modelled from
the specification; each such definition carries a doc comment saying so.
-/

/-! ## Byte-level primitives (the `bytes` crate put/get helpers) -/

/-- `BufMut::put_u32_le`: the four little-endian bytes of `x` as a `u32`
(bits at and above 2^32 are dropped, mirroring the `u32` argument type). -/
def u32le (x : Nat) : List Nat :=
  [x % 256, x / 256 % 256, x / 65536 % 256, x / 16777216 % 256]

/-- `BufMut::put_u32`: the four big-endian ("network order") bytes of `x`
as a `u32`. -/
def u32be (x : Nat) : List Nat :=
  [x / 16777216 % 256, x / 65536 % 256, x / 256 % 256, x % 256]

/-- `Buf::get_u32_le`: read a little-endian `u32` from the first four bytes
(missing bytes read as zero). -/
def get_u32_le (l : List Nat) : Nat :=
  l.getD 0 0 % 256 + l.getD 1 0 % 256 * 256 + l.getD 2 0 % 256 * 65536 +
    l.getD 3 0 % 256 * 16777216

/-- Modelled from the spec: LEB128 variable-length encoding of an unsigned
integer, used by the length-prefixed structured encodings (§6.3, §6.4). -/
def varint (n : Nat) : List Nat :=
  if h : n < 128 then [n]
  else (n % 128 + 128) :: varint (n / 128)
termination_by n
decreasing_by exact Nat.div_lt_self (by omega) (by omega)

/-! ## Collaborators modelled from the spec (not part of the builder file) -/

/-- Modelled from the spec (§4.2, `bytes_diff` from `table/utils.rs`): given
`base` and `key`, return the slice of `key` starting at the first index where
they differ; the empty slice when `base` is a prefix of `key` of equal
length; all of `key` when `base` is empty. -/
def bytes_diff : List Nat → List Nat → List Nat
  | [], key => key
  | _ :: _, [] => []
  | b :: bs, k :: ks => if b = k then bytes_diff bs ks else k :: ks

/-- One shift-and-conditional-xor round of the reflected CRC32C
(Castagnoli) bit loop. -/
def crc32cRound (c : Nat) : Nat :=
  if c % 2 = 1 then (c / 2) ^^^ 0x82F63B78 else c / 2

/-- Fold one input byte into the reflected CRC32C state (eight bit rounds). -/
def crc32cByte (crc b : Nat) : Nat :=
  let c := crc ^^^ b % 256
  crc32cRound (crc32cRound (crc32cRound (crc32cRound
    (crc32cRound (crc32cRound (crc32cRound (crc32cRound c)))))))

/-- Modelled from the spec (glossary, §3: `crc32_checksum` from
`table/utils.rs`): the CRC32C (Castagnoli) checksum of a byte string,
with the standard initial value and final complement. -/
def crc32_checksum (data : List Nat) : Nat :=
  data.foldl crc32cByte 0xFFFFFFFF ^^^ 0xFFFFFFFF

/-- The protobuf `Checksum` message: a checksum value and an algorithm tag. -/
structure Checksum where
  sum : Nat
  algo : Nat

/-- Modelled from the spec (§3, §6.3: the generated prost encoding of the
`Checksum` message, which is not part of the builder file): a stable,
self-delimiting tagged encoding of the two fields. -/
def encodeChecksum (c : Checksum) : List Nat :=
  1 :: varint c.sum ++ 2 :: varint c.algo

/-- Modelled from the spec: the enum value of `ChecksumAlg::Crc32c`
(the generated protobuf enum is not part of the builder file). -/
def crc32cAlg : Nat := 0

/-- Modelled from the spec (§6.5: `user_key` from `format.rs`): strip the
engine-fixed 8-byte version/sequence suffix from a full key. -/
def user_key (k : List Nat) : List Nat :=
  k.take (k.length - 8)

/-- Modelled from the spec (§4.3.2 step 2): a FarmHash-family 32-bit
fingerprint of a byte string.  The exact mixing function lives in an
external library; no property proved here depends on its values, only on
which keys are fingerprinted. -/
def fingerprint32 (k : List Nat) : Nat :=
  k.foldl (fun h b => (h * 31 + b + 1) % 4294967296) 0

/-- Modelled from the spec (§4.4): the serialized bloom filter built over
the key fingerprints at `finish`.  Its exact bit pattern depends on
real-valued parameters (logarithms of the false-positive rate); no property
proved here concerns the filter's contents, so only its dependence on the
fingerprint list is modelled. -/
def bloomFilterBytes (hashes : List Nat) : List Nat :=
  hashes.map (· % 256) ++ [1]

/-- Modelled from the spec (§3, §6.4: `HummockValue` from the storage
crate): a tagged value, `Put(bytes)` or `Delete`. -/
inductive HummockValue where
  | put : List Nat → HummockValue
  | delete : HummockValue
deriving DecidableEq

/-- Modelled from the spec (§6.4): `Put(v)` encodes as
`[tag=1][len(v):varint][v]`, `Delete` as `[tag=0]`. -/
def HummockValue.encode : HummockValue → List Nat
  | .put v => 1 :: varint v.length ++ v
  | .delete => [0]

/-- Modelled from the spec (§6.4): the exact encoded byte count, computed
without materializing the encoding. -/
def HummockValue.encoded_len : HummockValue → Nat
  | .put v => 1 + (varint v.length).length + v.length
  | .delete => 1

/-! ## The builder source file (`builder.rs`) -/

/-- Entry header: `overlap` is the length of the common prefix with the
block's base key, `diff` the length of the stored suffix.  Both fields are
`u16` in the source; values are kept in range by the `add` assertions. -/
structure Header where
  overlap : Nat
  diff : Nat

/-- `Header::encode` (builder.rs:32): put `(overlap as u32) << 16 | diff as
u32` as a little-endian `u32`.  The `mod 65536` realises the `u16` width of
the two fields. -/
def Header.encode (h : Header) : List Nat :=
  u32le ((h.overlap % 65536) <<< 16 ||| h.diff % 65536)

/-- `Header::decode` (builder.rs:37): read a little-endian `u32` `h` and
split it as `overlap = (h >> 16) as u16`, `diff = h as u16`. -/
def Header.decode (bytes : List Nat) : Header :=
  { overlap := get_u32_le bytes >>> 16 % 65536, diff := get_u32_le bytes % 65536 }

/-- `TableBuilderOptions` (builder.rs:45). -/
structure TableBuilderOptions where
  table_capacity : Nat
  block_size : Nat
  bloom_false_positive : Rat

/-- The prost `BlockOffset` message: one block descriptor. -/
structure BlockOffset where
  key : List Nat
  offset : Nat
  len : Nat

/-- The prost `TableMeta` message: block descriptors, the estimated-size
counter and the optional bloom filter bytes. -/
structure TableMeta where
  offsets : List BlockOffset
  estimated_size : Nat
  bloom_filter : List Nat

/-- `TableBuilder` (builder.rs:61): the builder state. -/
structure TableBuilder where
  options : TableBuilderOptions
  meta : TableMeta
  data_buf : List Nat
  base_key : List Nat
  base_offset : Nat
  entry_offsets : List Nat
  key_hashes : List Nat

/-- `TableBuilder::new` (builder.rs:82): empty buffers, default metadata. -/
def TableBuilder.new (options : TableBuilderOptions) : TableBuilder :=
  { options := options
    meta := { offsets := [], estimated_size := 0, bloom_filter := [] }
    data_buf := []
    base_key := []
    base_offset := 0
    entry_offsets := []
    key_hashes := [] }

/-- `TableBuilder::is_empty` (builder.rs:96). -/
def TableBuilder.is_empty (b : TableBuilder) : Bool :=
  b.data_buf.isEmpty

/-- `TableBuilder::key_diff` (builder.rs:101). -/
def TableBuilder.key_diff (b : TableBuilder) (key : List Nat) : List Nat :=
  bytes_diff b.base_key key

/-- `TableBuilder::finish_block` (builder.rs:106): assert the block is
non-empty, append each entry offset little-endian, the offset count
big-endian, the serialized checksum of everything from `base_offset` on,
and the checksum length big-endian; then record the block descriptor. -/
def TableBuilder.finish_block (b : TableBuilder) : Option TableBuilder :=
  if b.entry_offsets = [] then none
  else
    let buf1 := b.entry_offsets.foldl (fun buf o => buf ++ u32le o) b.data_buf
    let buf2 := buf1 ++ u32be b.entry_offsets.length
    let checksum : Checksum :=
      { sum := crc32_checksum (buf2.drop b.base_offset), algo := crc32cAlg }
    let cs_bytes := encodeChecksum checksum
    let buf3 := buf2 ++ cs_bytes ++ u32be cs_bytes.length
    let block_offset : BlockOffset :=
      { key := b.base_key, offset := b.base_offset, len := buf3.length - b.base_offset }
    some { b with
      data_buf := buf3
      meta := { b.meta with offsets := b.meta.offsets ++ [block_offset] } }

/-- `TableBuilder::should_finish_block` (builder.rs:138): false on an empty
block, otherwise compare the projected finalized block size (using the full
key length, not the diff key) against `block_size`. -/
def TableBuilder.should_finish_block (b : TableBuilder) (key : List Nat)
    (value : HummockValue) : Bool :=
  if b.entry_offsets = [] then false
  else
    let entries_offsets_size := (b.entry_offsets.length + 1) * 4 + 4 + 8 + 4
    let estimated_size := b.data_buf.length - b.base_offset + 6 + key.length +
      value.encoded_len + entries_offsets_size
    estimated_size > b.options.block_size

/-- The entry-emission tail of `TableBuilder::add` (builder.rs:186): after
the two `u16` range assertions, push the block-relative entry offset, then
append header, diff key and encoded value, and bump `estimated_size`. -/
def TableBuilder.pushEntry (b3 : TableBuilder) (diff_key key : List Nat)
    (value : HummockValue) : Option TableBuilder :=
  if key.length - diff_key.length ≤ 65535 ∧ diff_key.length ≤ 65535 then
    some { b3 with
      entry_offsets := b3.entry_offsets ++ [b3.data_buf.length - b3.base_offset]
      data_buf := b3.data_buf
        ++ Header.encode { overlap := key.length - diff_key.length, diff := diff_key.length }
        ++ diff_key ++ value.encode
      meta := { b3.meta with
        estimated_size := b3.meta.estimated_size + (value.encoded_len + diff_key.length + 4) } }
  else none

/-- The per-key body of `TableBuilder::add` after the flush decision
(builder.rs:177): record the key fingerprint, adopt the key as base key when
the base key is empty (storing the full key), otherwise diff against the
base key. -/
def TableBuilder.addEntry (b1 : TableBuilder) (key : List Nat)
    (value : HummockValue) : Option TableBuilder :=
  let b2 : TableBuilder :=
    { b1 with key_hashes := b1.key_hashes ++ [fingerprint32 (user_key key)] }
  if b2.base_key = [] then
    TableBuilder.pushEntry { b2 with base_key := key } key key value
  else
    TableBuilder.pushEntry b2 (bytes_diff b2.base_key key) key value

/-- The flush step of `TableBuilder::add` (builder.rs:169): when
`should_finish_block` says so, seal the current block, clear the base key,
advance `base_offset` to the buffer length and clear the entry offsets. -/
def TableBuilder.flushIfNeeded (b : TableBuilder) (key : List Nat)
    (value : HummockValue) : Option TableBuilder :=
  if b.should_finish_block key value then
    (b.finish_block).map fun bf =>
      { bf with base_key := [], base_offset := bf.data_buf.length, entry_offsets := [] }
  else some b

/-- `TableBuilder::add` (builder.rs:168): flush decision, then entry
emission. -/
def TableBuilder.add (b : TableBuilder) (key : List Nat)
    (value : HummockValue) : Option TableBuilder :=
  (b.flushIfNeeded key value).bind fun b1 => b1.addEntry key value

/-- `TableBuilder::reach_capacity` (builder.rs:211). -/
def TableBuilder.reach_capacity (b : TableBuilder) : Bool :=
  let block_size := b.data_buf.length + b.entry_offsets.length * 4 + 4 + 8 + 4
  let estimated_size := block_size + 4 + 5 * b.meta.offsets.length
  estimated_size > b.options.table_capacity

/-- `TableBuilder::finish` (builder.rs:225): seal the last block, build the
bloom filter when requested, and hand out the frozen buffer together with
the metadata. -/
def TableBuilder.finish (b : TableBuilder) : Option (List Nat × TableMeta) :=
  match b.finish_block with
  | none => none
  | some b1 =>
    let meta :=
      if 0 < b1.options.bloom_false_positive then
        { b1.meta with bloom_filter := bloomFilterBytes b1.key_hashes }
      else b1.meta
    some (b1.data_buf, meta)

/-- Run a sequence of `add` calls, propagating any assertion failure. -/
def addAll (b : TableBuilder) : List (List Nat × HummockValue) → Option TableBuilder
  | [] => some b
  | (k, v) :: rest =>
    match b.add k v with
    | none => none
    | some b1 => addAll b1 rest

/-! ## Derived layout vocabulary -/

/-- The bytes of a block from the start of the table up to and including the
big-endian offset-count word: previous buffer contents and block body, the
little-endian entry offsets, and the count. -/
def blockUpToCount (b : TableBuilder) : List Nat :=
  b.data_buf ++ (b.entry_offsets.map u32le).flatten ++ u32be b.entry_offsets.length

/-- The checksum descriptor `finish_block` seals the current block with. -/
def sealedChecksum (b : TableBuilder) : Checksum :=
  { sum := crc32_checksum ((blockUpToCount b).drop b.base_offset), algo := crc32cAlg }

/-- The data buffer contents after `finish_block`. -/
def sealedBuf (b : TableBuilder) : List Nat :=
  blockUpToCount b ++ encodeChecksum (sealedChecksum b) ++
    u32be (encodeChecksum (sealedChecksum b)).length

/-- The diff key `add` stores for an entry: the full key when the call
flushes (the new block starts with an empty base key) or when the base key
is empty, otherwise the byte diff against the base key. -/
def diffKeyAt (b : TableBuilder) (key : List Nat) (value : HummockValue) : List Nat :=
  if b.should_finish_block key value then key
  else if b.base_key = [] then key else bytes_diff b.base_key key

/-- The per-entry contributions to `estimated_size` along a run of `add`
calls: each entry contributes `encoded_len(value) + len(diff_key) + 4`. -/
def estContrib : TableBuilder → List (List Nat × HummockValue) → Option Nat
  | _, [] => some 0
  | b, (k, v) :: rest =>
    match b.add k v with
    | none => none
    | some b1 =>
      (estContrib b1 rest).map fun s =>
        v.encoded_len + (diffKeyAt b k v).length + 4 + s

/-- Block descriptors starting at `s` are contiguous: each descriptor sits
exactly where the previous one ended. -/
def contiguousFrom : Nat → List BlockOffset → Prop
  | _, [] => True
  | s, o :: rest => o.offset = s ∧ contiguousFrom (s + o.len) rest

/-- Total byte length covered by a descriptor list. -/
def sumLens (l : List BlockOffset) : Nat :=
  (l.map BlockOffset.len).sum

/-- The state invariant maintained by every `add` call: descriptors are
contiguous from offset 0, they cover exactly the bytes below `base_offset`,
`base_offset` never exceeds the buffer length, and every descriptor is
non-empty. -/
def builderInv (b : TableBuilder) : Prop :=
  contiguousFrom 0 b.meta.offsets ∧
  sumLens b.meta.offsets = b.base_offset ∧
  b.base_offset ≤ b.data_buf.length ∧
  ∀ o ∈ b.meta.offsets, 0 < o.len

/-! ## Concrete states used by the witnesses -/

/-- Example options: zero capacities, bloom disabled. -/
def optsEx : TableBuilderOptions :=
  { table_capacity := 0, block_size := 0, bloom_false_positive := 0 }

/-- Example builder state holding one already-written entry
(header `(0, 1)`, key byte `97`, a `Delete` value). -/
def bEx : TableBuilder :=
  { options := optsEx
    meta := { offsets := [], estimated_size := 6, bloom_filter := [] }
    data_buf := [1, 0, 0, 0, 97, 0]
    base_key := [97]
    base_offset := 0
    entry_offsets := [0]
    key_hashes := [] }

/-- Example entry sequence for the run-shaped witnesses. -/
def entriesEx : List (List Nat × HummockValue) :=
  [([97], HummockValue.delete), ([97, 98], HummockValue.delete)]

/-- The builder after one example `add` of key `[97, 98]`. -/
def bAdd1 : TableBuilder :=
  ((TableBuilder.new optsEx).add [97, 98] HummockValue.delete).getD
    (TableBuilder.new optsEx)

/-- The builder after one example `add` of key `[97]`. -/
def bAdd1a : TableBuilder :=
  ((TableBuilder.new optsEx).add [97] HummockValue.delete).getD
    (TableBuilder.new optsEx)

/-- The builder after running the example entry sequence. -/
def bRun2 : TableBuilder :=
  (addAll (TableBuilder.new optsEx) entriesEx).getD (TableBuilder.new optsEx)

/-- The sealed table of the example run: data bytes and metadata. -/
def finRun2 : List Nat × TableMeta :=
  ((addAll (TableBuilder.new optsEx) entriesEx).bind TableBuilder.finish).getD
    ([], { offsets := [], estimated_size := 0, bloom_filter := [] })

/-! ## Arithmetic and list helper lemmas -/

theorem shiftLeft16_or_eq_add (a b : Nat) (hb : b < 65536) :
    a <<< 16 ||| b = a * 65536 + b := by
  have hb' : b < 2 ^ 16 := by omega
  have hrw : a * 65536 + b = 2 ^ 16 * a + b := by ring_nf
  rw [hrw]
  refine Nat.eq_of_testBit_eq fun i => ?_
  rw [Nat.testBit_lor, Nat.testBit_shiftLeft, Nat.testBit_mul_pow_two_add a hb' i]
  by_cases hi : i < 16
  · have : ¬ i ≥ 16 := by omega
    simp [this, hi]
  · have h16 : i ≥ 16 := by omega
    have hbit : b.testBit i = false := by
      refine Nat.testBit_lt_two_pow (lt_of_lt_of_le hb' ?_)
      exact Nat.pow_le_pow_right (by omega) h16
    simp [h16, hi, hbit]

theorem get_u32_le_u32le (x : Nat) : get_u32_le (u32le x) = x % 4294967296 := by
  simp only [u32le, get_u32_le, List.getD_cons_zero, List.getD_cons_succ]
  omega

theorem foldl_put_u32le (l buf : List Nat) :
    l.foldl (fun acc o => acc ++ u32le o) buf = buf ++ (l.map u32le).flatten := by
  induction l generalizing buf with
  | nil => simp
  | cons x xs ih => simp [ih, List.append_assoc]

theorem finish_block_eq (b : TableBuilder) (h : b.entry_offsets ≠ []) :
    b.finish_block = some { b with
      data_buf := sealedBuf b
      meta := { b.meta with offsets := b.meta.offsets ++
        [{ key := b.base_key, offset := b.base_offset,
           len := (sealedBuf b).length - b.base_offset }] } } := by
  simp only [TableBuilder.finish_block, if_neg h, foldl_put_u32le, sealedBuf,
    sealedChecksum, blockUpToCount, List.append_assoc]

/-! ## Claim theorems -/

/-- C8: header encoding and decoding are mutually inverse on all pairs of
`u16` values: decoding the 4-byte little-endian encoding of
`Header{overlap, diff}` yields back exactly `Header{overlap, diff}`. -/
theorem header_encode_decode_roundtrip (overlap diff : Nat)
    (ho : overlap < 65536) (hd : diff < 65536) :
    Header.decode (Header.encode { overlap := overlap, diff := diff }) =
      { overlap := overlap, diff := diff } := by
  have hor : overlap <<< 16 ||| diff = overlap * 65536 + diff :=
    shiftLeft16_or_eq_add _ _ hd
  simp only [Header.decode, Header.encode, Nat.mod_eq_of_lt ho, Nat.mod_eq_of_lt hd,
    hor, get_u32_le_u32le, Nat.shiftRight_eq_div_pow]
  have hm : (overlap * 65536 + diff) % 4294967296 = overlap * 65536 + diff := by omega
  rw [hm]
  simp only [Header.mk.injEq]
  constructor
  · have : (2 : Nat) ^ 16 = 65536 := by norm_num
    rw [this]
    omega
  · omega

/-- C8 witness: the round trip at the concrete header `(23333, 23334)`. -/
theorem header_encode_decode_roundtrip_witness :
    Header.decode (Header.encode { overlap := 23333, diff := 23334 }) =
      { overlap := 23333, diff := 23334 } :=
  header_encode_decode_roundtrip 23333 23334 (by norm_num) (by norm_num)

/-- C3: `should_finish_block` returns false whenever the current block has
no entries; otherwise it returns true iff
`(len(buf) - base_offset) + 6 + len(key) + encoded_len(value) +
(len(entry_offsets)+1)*4 + 4 + 8 + 4 > block_size`, the projection using the
full key length rather than the prefix-compressed diff-key length. -/
theorem should_finish_block_spec (b : TableBuilder) (key : List Nat)
    (value : HummockValue) :
    b.should_finish_block key value =
      (decide (b.entry_offsets ≠ []) &&
        decide (b.data_buf.length - b.base_offset + 6 + key.length +
          value.encoded_len + (b.entry_offsets.length + 1) * 4 + 4 + 8 + 4 >
            b.options.block_size)) := by
  by_cases h : b.entry_offsets = []
  · simp [TableBuilder.should_finish_block, h]
  · simp only [TableBuilder.should_finish_block, if_neg h]
    have hd : decide (b.entry_offsets ≠ []) = true := decide_eq_true h
    rw [hd, Bool.true_and, decide_eq_decide]
    omega

/-- C1: every block emitted by `finish_block` appends after the block body,
in order: each recorded entry offset as a little-endian u32, the offset
count as a big-endian u32, the serialized checksum descriptor bytes, and
the length of those bytes as a big-endian u32; and every per-entry header is
encoded as a little-endian u32 with layout `(overlap << 16) | diff`. -/
theorem finish_block_byte_layout (b : TableBuilder) (hd : Header)
    (h : b.entry_offsets ≠ []) (ho : hd.overlap < 65536) (hdi : hd.diff < 65536) :
    (∃ cs : Checksum,
      (b.finish_block).map TableBuilder.data_buf =
        some (b.data_buf ++ (b.entry_offsets.map u32le).flatten
          ++ u32be b.entry_offsets.length
          ++ encodeChecksum cs ++ u32be (encodeChecksum cs).length)) ∧
    hd.encode = u32le (hd.overlap <<< 16 ||| hd.diff) := by
  constructor
  · refine ⟨sealedChecksum b, ?_⟩
    rw [finish_block_eq b h]
    simp [sealedBuf, blockUpToCount, List.append_assoc]
  · simp [Header.encode, Nat.mod_eq_of_lt ho, Nat.mod_eq_of_lt hdi]

/-- C1 witness: the layout at the one-entry state `bEx` and the header
`(2, 3)`. -/
theorem finish_block_byte_layout_witness :
    (∃ cs : Checksum,
      (bEx.finish_block).map TableBuilder.data_buf =
        some (bEx.data_buf ++ (bEx.entry_offsets.map u32le).flatten
          ++ u32be bEx.entry_offsets.length
          ++ encodeChecksum cs ++ u32be (encodeChecksum cs).length)) ∧
    Header.encode { overlap := 2, diff := 3 } = u32le (2 <<< 16 ||| 3) :=
  finish_block_byte_layout bEx { overlap := 2, diff := 3 }
    (by decide) (by decide) (by decide)

/-- C2: the `sum` field of the checksum descriptor stored by `finish_block`
is the CRC32C of exactly the block's bytes from the block's start offset up
to and including the offset-count word — the descriptor bytes and the
trailing length word are excluded from the checksum input. -/
theorem finish_block_checksum_coverage (b : TableBuilder)
    (h : b.entry_offsets ≠ []) :
    (b.finish_block).map TableBuilder.data_buf =
      some (blockUpToCount b
        ++ encodeChecksum
          { sum := crc32_checksum ((blockUpToCount b).drop b.base_offset),
            algo := crc32cAlg }
        ++ u32be (encodeChecksum
          { sum := crc32_checksum ((blockUpToCount b).drop b.base_offset),
            algo := crc32cAlg }).length) := by
  rw [finish_block_eq b h]
  simp [sealedBuf, sealedChecksum]

/-- C2 witness: the checksum coverage at the one-entry state `bEx`. -/
theorem finish_block_checksum_coverage_witness :
    (bEx.finish_block).map TableBuilder.data_buf =
      some (blockUpToCount bEx
        ++ encodeChecksum
          { sum := crc32_checksum ((blockUpToCount bEx).drop bEx.base_offset),
            algo := crc32cAlg }
        ++ u32be (encodeChecksum
          { sum := crc32_checksum ((blockUpToCount bEx).drop bEx.base_offset),
            algo := crc32cAlg }).length) :=
  finish_block_checksum_coverage bEx (by decide)

theorem bytes_diff_length_le (base key : List Nat) :
    (bytes_diff base key).length ≤ key.length := by
  induction base generalizing key with
  | nil => simp [bytes_diff]
  | cons b bs ih =>
    cases key with
    | nil => simp [bytes_diff]
    | cons k ks =>
      by_cases hbk : b = k
      · simp only [bytes_diff, if_pos hbk, List.length_cons]
        exact le_trans (ih ks) (by omega)
      · simp [bytes_diff, hbk]

theorem bytes_diff_reconstruct (base key : List Nat) :
    base.take (key.length - (bytes_diff base key).length) ++ bytes_diff base key
      = key := by
  induction base generalizing key with
  | nil => simp [bytes_diff]
  | cons b bs ih =>
    cases key with
    | nil => simp [bytes_diff]
    | cons k ks =>
      by_cases hbk : b = k
      · have hle := bytes_diff_length_le bs ks
        simp only [bytes_diff, if_pos hbk, List.length_cons]
        have hsub : ks.length + 1 - (bytes_diff bs ks).length
            = (ks.length - (bytes_diff bs ks).length) + 1 := by omega
        rw [hsub, List.take_succ_cons, hbk, List.cons_append]
        exact congrArg (k :: ·) (ih ks)
      · simp [bytes_diff, hbk]

theorem pushEntry_eq_some (b3 : TableBuilder) (diff_key key : List Nat)
    (value : HummockValue) (b' : TableBuilder)
    (h : b3.pushEntry diff_key key value = some b') :
    (key.length - diff_key.length ≤ 65535 ∧ diff_key.length ≤ 65535) ∧
    b' = { b3 with
      entry_offsets := b3.entry_offsets ++ [b3.data_buf.length - b3.base_offset]
      data_buf := b3.data_buf
        ++ Header.encode { overlap := key.length - diff_key.length, diff := diff_key.length }
        ++ diff_key ++ value.encode
      meta := { b3.meta with
        estimated_size :=
          b3.meta.estimated_size + (value.encoded_len + diff_key.length + 4) } } := by
  by_cases hc : key.length - diff_key.length ≤ 65535 ∧ diff_key.length ≤ 65535
  · rw [TableBuilder.pushEntry, if_pos hc] at h
    exact ⟨hc, (Option.some_inj.mp h).symm⟩
  · rw [TableBuilder.pushEntry, if_neg hc] at h
    cases h

theorem addEntry_eq (b1 : TableBuilder) (key : List Nat) (value : HummockValue) :
    b1.addEntry key value =
      (if b1.base_key = [] then
        TableBuilder.pushEntry
          { b1 with
            key_hashes := b1.key_hashes ++ [fingerprint32 (user_key key)]
            base_key := key } key key value
      else
        TableBuilder.pushEntry
          { b1 with key_hashes := b1.key_hashes ++ [fingerprint32 (user_key key)] }
          (bytes_diff b1.base_key key) key value) := rfl

/-- C5: for every entry written by `add`, the stored header fields satisfy
`overlap + diff = len(key)`; concatenating the first `overlap` bytes of the
block's base key with the stored diff bytes reconstructs the original key;
and for the first entry of a block (empty base key at entry time) the
overlap is 0 and the full key is stored inline. -/
theorem add_entry_prefix_compression (b : TableBuilder) (key : List Nat)
    (value : HummockValue) (b' : TableBuilder) (h : b.add key value = some b') :
    ∃ b1 diff_key,
      b.flushIfNeeded key value = some b1 ∧
      diff_key = (if b1.base_key = [] then key else bytes_diff b1.base_key key) ∧
      key.length - diff_key.length + diff_key.length = key.length ∧
      b'.data_buf = b1.data_buf
        ++ Header.encode { overlap := key.length - diff_key.length, diff := diff_key.length }
        ++ diff_key ++ value.encode ∧
      b'.base_key.take (key.length - diff_key.length) ++ diff_key = key ∧
      (b1.base_key = [] → key.length - diff_key.length = 0 ∧ diff_key = key) := by
  rw [TableBuilder.add, Option.bind_eq_some] at h
  obtain ⟨b1, hflush, hentry⟩ := h
  rw [addEntry_eq] at hentry
  by_cases hbk : b1.base_key = []
  · rw [if_pos hbk] at hentry
    obtain ⟨hc, hb'⟩ := pushEntry_eq_some _ _ _ _ _ hentry
    refine ⟨b1, key, hflush, by rw [if_pos hbk], by omega, ?_, ?_, fun _ => ⟨by omega, rfl⟩⟩
    · rw [hb']
    · rw [hb']
      simp [Nat.sub_self]
  · rw [if_neg hbk] at hentry
    obtain ⟨hc, hb'⟩ := pushEntry_eq_some _ _ _ _ _ hentry
    have hle := bytes_diff_length_le b1.base_key key
    refine ⟨b1, bytes_diff b1.base_key key, hflush, by rw [if_neg hbk], by omega, ?_, ?_,
      fun hcontra => absurd hcontra hbk⟩
    · rw [hb']
    · rw [hb']
      exact bytes_diff_reconstruct b1.base_key key

/-- C5 witness: the entry layout and key reconstruction for the first add
of key `[97, 98]` into a fresh builder. -/
theorem add_entry_prefix_compression_witness :
    ∃ b1 diff_key,
      (TableBuilder.new optsEx).flushIfNeeded [97, 98] HummockValue.delete = some b1 ∧
      diff_key = (if b1.base_key = [] then [97, 98] else bytes_diff b1.base_key [97, 98]) ∧
      ([97, 98] : List Nat).length - diff_key.length + diff_key.length
        = ([97, 98] : List Nat).length ∧
      bAdd1.data_buf = b1.data_buf
        ++ Header.encode
          { overlap := ([97, 98] : List Nat).length - diff_key.length,
            diff := diff_key.length }
        ++ diff_key ++ HummockValue.delete.encode ∧
      bAdd1.base_key.take (([97, 98] : List Nat).length - diff_key.length) ++ diff_key
        = [97, 98] ∧
      (b1.base_key = [] →
        ([97, 98] : List Nat).length - diff_key.length = 0 ∧ diff_key = [97, 98]) :=
  add_entry_prefix_compression (TableBuilder.new optsEx) [97, 98]
    HummockValue.delete bAdd1 rfl

theorem flushIfNeeded_eq_some (b : TableBuilder) (key : List Nat)
    (value : HummockValue) (b1 : TableBuilder)
    (h : b.flushIfNeeded key value = some b1) :
    (b.should_finish_block key value = false ∧ b1 = b) ∨
    (b.should_finish_block key value = true ∧ b.entry_offsets ≠ [] ∧
      b1 = { b with
        data_buf := sealedBuf b
        meta := { b.meta with offsets := b.meta.offsets ++
          [{ key := b.base_key, offset := b.base_offset,
             len := (sealedBuf b).length - b.base_offset }] }
        base_key := []
        base_offset := (sealedBuf b).length
        entry_offsets := [] }) := by
  rw [TableBuilder.flushIfNeeded] at h
  by_cases hs : b.should_finish_block key value = true
  · right
    have hne : b.entry_offsets ≠ [] := by
      intro hemp
      rw [TableBuilder.should_finish_block, if_pos hemp] at hs
      cases hs
    rw [if_pos hs, finish_block_eq b hne, Option.map_some'] at h
    exact ⟨hs, hne, (Option.some_inj.mp h).symm⟩
  · left
    have hs' : b.should_finish_block key value = false := by
      cases hb : b.should_finish_block key value
      · rfl
      · exact absurd hb hs
    rw [if_neg hs] at h
    exact ⟨hs', (Option.some_inj.mp h).symm⟩

theorem add_estimated_size_step (b : TableBuilder) (key : List Nat)
    (value : HummockValue) (b' : TableBuilder) (h : b.add key value = some b') :
    b'.meta.estimated_size =
      b.meta.estimated_size + (value.encoded_len + (diffKeyAt b key value).length + 4) := by
  rw [TableBuilder.add, Option.bind_eq_some] at h
  obtain ⟨b1, hflush, hentry⟩ := h
  rw [addEntry_eq] at hentry
  rcases flushIfNeeded_eq_some b key value b1 hflush with ⟨hs, rfl⟩ | ⟨hs, hne, rfl⟩
  · by_cases hbk : b1.base_key = []
    · rw [if_pos hbk] at hentry
      obtain ⟨_, rfl⟩ := pushEntry_eq_some _ _ _ _ _ hentry
      simp [diffKeyAt, hs, hbk]
    · rw [if_neg hbk] at hentry
      obtain ⟨_, rfl⟩ := pushEntry_eq_some _ _ _ _ _ hentry
      simp [diffKeyAt, hs, hbk]
  · rw [if_pos rfl] at hentry
    obtain ⟨_, rfl⟩ := pushEntry_eq_some _ _ _ _ _ hentry
    simp [diffKeyAt, hs]

theorem addAll_estimated_size (entries : List (List Nat × HummockValue))
    (b b' : TableBuilder) (h : addAll b entries = some b') :
    ∃ s, estContrib b entries = some s ∧
      b'.meta.estimated_size = b.meta.estimated_size + s := by
  induction entries generalizing b with
  | nil =>
    have hb : b = b' := Option.some_inj.mp h
    exact ⟨0, rfl, by rw [← hb]; omega⟩
  | cons e rest ih =>
    obtain ⟨k, v⟩ := e
    rw [addAll] at h
    cases hadd : b.add k v with
    | none => rw [hadd] at h; exact Option.noConfusion h
    | some b1 =>
      rw [hadd] at h
      obtain ⟨s, hs, hsum⟩ := ih b1 h
      refine ⟨v.encoded_len + (diffKeyAt b k v).length + 4 + s, ?_, ?_⟩
      · rw [estContrib, hadd]
        simp only [hs, Option.map_some']
      · rw [hsum, add_estimated_size_step b k v b1 hadd]
        ring

/-- C7: after any sequence of `add` calls from a fresh builder, the
metadata's `estimated_size` equals the sum over all added entries of
`encoded_len(value) + len(diff_key) + 4`; and `estimated_size` is
non-decreasing across `add` calls. -/
theorem estimated_size_spec (opts : TableBuilderOptions)
    (entries : List (List Nat × HummockValue)) (b' : TableBuilder)
    (b2 : TableBuilder) (key : List Nat) (value : HummockValue) (b3 : TableBuilder)
    (h : addAll (TableBuilder.new opts) entries = some b')
    (h2 : b2.add key value = some b3) :
    estContrib (TableBuilder.new opts) entries = some b'.meta.estimated_size ∧
    b2.meta.estimated_size ≤ b3.meta.estimated_size := by
  constructor
  · obtain ⟨s, hs, hsum⟩ := addAll_estimated_size entries _ _ h
    rw [hs, hsum]
    simp [TableBuilder.new]
  · rw [add_estimated_size_step b2 key value b3 h2]
    omega

/-- C7 witness: the estimated-size sum over the example two-entry run, and
monotonicity across the example first add. -/
theorem estimated_size_spec_witness :
    estContrib (TableBuilder.new optsEx) entriesEx = some bRun2.meta.estimated_size ∧
    (TableBuilder.new optsEx).meta.estimated_size ≤ bAdd1a.meta.estimated_size :=
  estimated_size_spec optsEx entriesEx bRun2 (TableBuilder.new optsEx) [97]
    HummockValue.delete bAdd1a rfl rfl

theorem header_encode_length (hd : Header) : (Header.encode hd).length = 4 := by
  simp [Header.encode, u32le]

theorem add_data_buf_grows (b : TableBuilder) (key : List Nat)
    (value : HummockValue) (b' : TableBuilder) (h : b.add key value = some b') :
    b.data_buf.length + 4 ≤ b'.data_buf.length := by
  rw [TableBuilder.add, Option.bind_eq_some] at h
  obtain ⟨b1, hflush, hentry⟩ := h
  have h1 : b.data_buf.length ≤ b1.data_buf.length := by
    rcases flushIfNeeded_eq_some b key value b1 hflush with ⟨_, rfl⟩ | ⟨_, _, rfl⟩
    · omega
    · simp [sealedBuf, blockUpToCount]
  rw [addEntry_eq] at hentry
  by_cases hbk : b1.base_key = []
  · rw [if_pos hbk] at hentry
    obtain ⟨_, rfl⟩ := pushEntry_eq_some _ _ _ _ _ hentry
    simp only [List.length_append, header_encode_length]
    omega
  · rw [if_neg hbk] at hentry
    obtain ⟨_, rfl⟩ := pushEntry_eq_some _ _ _ _ _ hentry
    simp only [List.length_append, header_encode_length]
    omega

theorem addAll_data_buf_mono (entries : List (List Nat × HummockValue))
    (b b' : TableBuilder) (h : addAll b entries = some b') :
    b.data_buf.length ≤ b'.data_buf.length := by
  induction entries generalizing b with
  | nil =>
    have hb : b = b' := Option.some_inj.mp h
    rw [hb]
  | cons e rest ih =>
    obtain ⟨k, v⟩ := e
    rw [addAll] at h
    cases hadd : b.add k v with
    | none => rw [hadd] at h; exact Option.noConfusion h
    | some b1 =>
      rw [hadd] at h
      have := add_data_buf_grows b k v b1 hadd
      have := ih b1 h
      omega

/-- C10: `is_empty` returns true iff no `add` call has been performed on a
fresh builder — it reports buffer emptiness, and every `add` appends at
least the 4-byte entry header to the buffer, which is never removed. -/
theorem is_empty_iff_no_add (opts : TableBuilderOptions)
    (entries : List (List Nat × HummockValue)) (b : TableBuilder)
    (b2 : TableBuilder) (key : List Nat) (value : HummockValue) (b3 : TableBuilder)
    (h : addAll (TableBuilder.new opts) entries = some b)
    (h2 : b2.add key value = some b3) :
    (b.is_empty = true ↔ entries = []) ∧
    b2.data_buf.length + 4 ≤ b3.data_buf.length := by
  refine ⟨⟨?_, ?_⟩, add_data_buf_grows b2 key value b3 h2⟩
  · intro hemp
    cases entries with
    | nil => rfl
    | cons e rest =>
      exfalso
      obtain ⟨k, v⟩ := e
      rw [addAll] at h
      cases hadd : (TableBuilder.new opts).add k v with
      | none => rw [hadd] at h; exact Option.noConfusion h
      | some b1 =>
        rw [hadd] at h
        have hg := add_data_buf_grows _ _ _ _ hadd
        have hm := addAll_data_buf_mono rest b1 b h
        rw [TableBuilder.is_empty, List.isEmpty_iff] at hemp
        have : b.data_buf.length = 0 := by rw [hemp]; rfl
        simp [TableBuilder.new] at hg
        omega
  · intro hnil
    subst hnil
    have hb : TableBuilder.new opts = b := Option.some_inj.mp h
    rw [← hb]
    rfl

/-- C10 witness: emptiness before and after the example run, and the
4-byte growth across the example first add. -/
theorem is_empty_iff_no_add_witness :
    (bRun2.is_empty = true ↔ entriesEx = []) ∧
    (TableBuilder.new optsEx).data_buf.length + 4 ≤ bAdd1a.data_buf.length :=
  is_empty_iff_no_add optsEx entriesEx bRun2 (TableBuilder.new optsEx) [97]
    HummockValue.delete bAdd1a rfl rfl

theorem add_entry_offsets_ne (b : TableBuilder) (key : List Nat)
    (value : HummockValue) (b' : TableBuilder) (h : b.add key value = some b') :
    b'.entry_offsets ≠ [] := by
  rw [TableBuilder.add, Option.bind_eq_some] at h
  obtain ⟨b1, _, hentry⟩ := h
  rw [addEntry_eq] at hentry
  by_cases hbk : b1.base_key = []
  · rw [if_pos hbk] at hentry
    obtain ⟨_, rfl⟩ := pushEntry_eq_some _ _ _ _ _ hentry
    simp
  · rw [if_neg hbk] at hentry
    obtain ⟨_, rfl⟩ := pushEntry_eq_some _ _ _ _ _ hentry
    simp

theorem addAll_entry_offsets_ne (entries : List (List Nat × HummockValue))
    (b b' : TableBuilder) (h : addAll b entries = some b') :
    entries ≠ [] → b'.entry_offsets ≠ [] := by
  induction entries generalizing b with
  | nil => intro hne; exact absurd rfl hne
  | cons e rest ih =>
    intro _
    obtain ⟨k, v⟩ := e
    rw [addAll] at h
    cases hadd : b.add k v with
    | none => rw [hadd] at h; exact Option.noConfusion h
    | some b1 =>
      rw [hadd] at h
      cases rest with
      | nil =>
        have hb : b1 = b' := Option.some_inj.mp h
        rw [← hb]
        exact add_entry_offsets_ne _ _ _ _ hadd
      | cons e2 rest2 => exact ih b1 h (by simp)

/-- C6: `finish` on a builder that received zero `add` calls fails the
non-empty assertion inside `finish_block` (empty tables are never
produced); after at least one `add` it passes that assertion and returns
the frozen data buffer together with the metadata. -/
theorem finish_empty_table_behavior (opts : TableBuilderOptions)
    (entries : List (List Nat × HummockValue)) (b : TableBuilder)
    (hne : entries ≠ []) (h : addAll (TableBuilder.new opts) entries = some b) :
    (TableBuilder.new opts).finish = none ∧
    ∃ data meta, b.finish = some (data, meta) := by
  constructor
  · rfl
  · have hoff := addAll_entry_offsets_ne entries _ b h hne
    rw [TableBuilder.finish, finish_block_eq b hoff]
    exact ⟨_, _, rfl⟩

/-- C6 witness: `finish` fails on the fresh builder and succeeds after the
example two-entry run. -/
theorem finish_empty_table_behavior_witness :
    (TableBuilder.new optsEx).finish = none ∧
    ∃ data meta, bRun2.finish = some (data, meta) :=
  finish_empty_table_behavior optsEx entriesEx bRun2 (by decide) rfl

theorem sumLens_cons (a : BlockOffset) (l : List BlockOffset) :
    sumLens (a :: l) = a.len + sumLens l := by
  simp [sumLens]

theorem sumLens_append_single (l : List BlockOffset) (o : BlockOffset) :
    sumLens (l ++ [o]) = sumLens l + o.len := by
  simp [sumLens]

theorem contiguousFrom_append (s : Nat) (l : List BlockOffset) (o : BlockOffset) :
    contiguousFrom s (l ++ [o]) ↔
      contiguousFrom s l ∧ o.offset = s + sumLens l := by
  induction l generalizing s with
  | nil => simp [contiguousFrom, sumLens]
  | cons a as ih =>
    have hstep : contiguousFrom s ((a :: as) ++ [o]) =
        (a.offset = s ∧ contiguousFrom (s + a.len) (as ++ [o])) := rfl
    rw [hstep, ih (s + a.len), sumLens_cons]
    constructor
    · rintro ⟨h1, h2, h3⟩
      exact ⟨⟨h1, h2⟩, by omega⟩
    · rintro ⟨⟨h1, h2⟩, h3⟩
      exact ⟨h1, h2, by omega⟩

theorem chain_of_contiguousFrom (l : List BlockOffset) :
    ∀ s, contiguousFrom s l →
      List.Chain' (fun a b => b.offset = a.offset + a.len) l := by
  induction l with
  | nil => intro s _; exact List.chain'_nil
  | cons a as ih =>
    intro s h
    obtain ⟨ha, hrest⟩ := h
    cases as with
    | nil => exact List.chain'_singleton a
    | cons a2 as2 =>
      rw [List.chain'_cons]
      obtain ⟨ha2, hrest2⟩ := hrest
      exact ⟨by rw [ha2, ha], ih (s + a.len) ⟨ha2, hrest2⟩⟩

theorem sealedBuf_length_ge (b : TableBuilder) :
    b.data_buf.length + 8 ≤ (sealedBuf b).length := by
  simp [sealedBuf, blockUpToCount, u32be]
  omega

theorem builderInv_new (opts : TableBuilderOptions) :
    builderInv (TableBuilder.new opts) := by
  refine ⟨trivial, rfl, by simp [TableBuilder.new], ?_⟩
  intro o ho
  simp [TableBuilder.new] at ho

theorem add_builderInv (b : TableBuilder) (key : List Nat)
    (value : HummockValue) (b' : TableBuilder) (hinv : builderInv b)
    (h : b.add key value = some b') : builderInv b' := by
  obtain ⟨hc, hsum, hble, hpos⟩ := hinv
  rw [TableBuilder.add, Option.bind_eq_some] at h
  obtain ⟨b1, hflush, hentry⟩ := h
  have hinv1 : builderInv b1 := by
    rcases flushIfNeeded_eq_some b key value b1 hflush with ⟨_, rfl⟩ | ⟨_, hne, rfl⟩
    · exact ⟨hc, hsum, hble, hpos⟩
    · have hge := sealedBuf_length_ge b
      refine ⟨?_, ?_, ?_, ?_⟩
      · show contiguousFrom 0 (b.meta.offsets ++ [_])
        rw [contiguousFrom_append]
        refine ⟨hc, ?_⟩
        rw [hsum]
        show b.base_offset = 0 + b.base_offset
        omega
      · show sumLens (b.meta.offsets ++ [_]) = _
        rw [sumLens_append_single, hsum]
        show b.base_offset + ((sealedBuf b).length - b.base_offset) = (sealedBuf b).length
        omega
      · show (sealedBuf b).length ≤ (sealedBuf b).length
        omega
      · intro o ho
        rw [show ({ b with
              data_buf := sealedBuf b
              meta := { b.meta with offsets := b.meta.offsets ++
                [{ key := b.base_key, offset := b.base_offset,
                   len := (sealedBuf b).length - b.base_offset }] }
              base_key := []
              base_offset := (sealedBuf b).length
              entry_offsets := [] } : TableBuilder).meta.offsets
            = b.meta.offsets ++
              [{ key := b.base_key, offset := b.base_offset,
                 len := (sealedBuf b).length - b.base_offset }] from rfl] at ho
        rcases List.mem_append.mp ho with ho' | ho'
        · exact hpos o ho'
        · rw [List.mem_singleton.mp ho']
          show 0 < (sealedBuf b).length - b.base_offset
          omega
  obtain ⟨hc1, hsum1, hble1, hpos1⟩ := hinv1
  rw [addEntry_eq] at hentry
  by_cases hbk : b1.base_key = []
  · rw [if_pos hbk] at hentry
    obtain ⟨_, rfl⟩ := pushEntry_eq_some _ _ _ _ _ hentry
    refine ⟨hc1, hsum1, ?_, hpos1⟩
    simp only [List.length_append]
    omega
  · rw [if_neg hbk] at hentry
    obtain ⟨_, rfl⟩ := pushEntry_eq_some _ _ _ _ _ hentry
    refine ⟨hc1, hsum1, ?_, hpos1⟩
    simp only [List.length_append]
    omega

theorem addAll_builderInv (entries : List (List Nat × HummockValue))
    (b b' : TableBuilder) (hinv : builderInv b)
    (h : addAll b entries = some b') : builderInv b' := by
  induction entries generalizing b with
  | nil =>
    have hb : b = b' := Option.some_inj.mp h
    rw [← hb]; exact hinv
  | cons e rest ih =>
    obtain ⟨k, v⟩ := e
    rw [addAll] at h
    cases hadd : b.add k v with
    | none => rw [hadd] at h; exact Option.noConfusion h
    | some b1 =>
      rw [hadd] at h
      exact ih b1 (add_builderInv b k v b1 hinv hadd) h

theorem finish_block_offsets_props (b b1 : TableBuilder) (hinv : builderInv b)
    (h : b.finish_block = some b1) :
    contiguousFrom 0 b1.meta.offsets ∧ ∀ o ∈ b1.meta.offsets, 0 < o.len := by
  obtain ⟨hc, hsum, hble, hpos⟩ := hinv
  have hne : b.entry_offsets ≠ [] := by
    intro hemp
    rw [TableBuilder.finish_block, if_pos hemp] at h
    exact Option.noConfusion h
  rw [finish_block_eq b hne] at h
  have hb1 := (Option.some_inj.mp h).symm
  have hge := sealedBuf_length_ge b
  constructor
  · rw [hb1]
    show contiguousFrom 0 (b.meta.offsets ++ [_])
    rw [contiguousFrom_append]
    refine ⟨hc, ?_⟩
    rw [hsum]
    show b.base_offset = 0 + b.base_offset
    omega
  · intro o ho
    rw [hb1] at ho
    have ho' : o ∈ b.meta.offsets ++
        [{ key := b.base_key, offset := b.base_offset,
           len := (sealedBuf b).length - b.base_offset }] := ho
    rcases List.mem_append.mp ho' with hm | hm
    · exact hpos o hm
    · rw [List.mem_singleton.mp hm]
      show 0 < (sealedBuf b).length - b.base_offset
      omega

/-- C4: in the metadata returned by `finish` after any sequence of `add`
calls, block descriptors are contiguous — each descriptor's offset is the
previous descriptor's offset plus its length — and every descriptor's
length is strictly positive (hence offsets strictly increase). -/
theorem meta_offsets_contiguous (opts : TableBuilderOptions)
    (entries : List (List Nat × HummockValue)) (data : List Nat) (meta : TableMeta)
    (h : (addAll (TableBuilder.new opts) entries).bind TableBuilder.finish
      = some (data, meta)) :
    List.Chain' (fun a b => b.offset = a.offset + a.len) meta.offsets ∧
    List.Forall (fun o => 0 < o.len) meta.offsets := by
  rw [Option.bind_eq_some] at h
  obtain ⟨b, hall, hfin⟩ := h
  have hinv : builderInv b := addAll_builderInv entries _ b (builderInv_new opts) hall
  rw [TableBuilder.finish] at hfin
  cases hfb : b.finish_block with
  | none => rw [hfb] at hfin; exact Option.noConfusion hfin
  | some b1 =>
    rw [hfb] at hfin
    have hpair := Option.some_inj.mp hfin
    have hmeta : meta.offsets = b1.meta.offsets := by
      injection hpair with hd hm
      by_cases hbl : 0 < b1.options.bloom_false_positive
      · rw [if_pos hbl] at hm
        rw [← hm]
      · rw [if_neg hbl] at hm
        rw [← hm]
    obtain ⟨hcont, hpos⟩ := finish_block_offsets_props b b1 hinv hfb
    rw [hmeta]
    constructor
    · exact chain_of_contiguousFrom b1.meta.offsets 0 hcont
    · rw [List.forall_iff_forall_mem]
      exact hpos

/-- C4 witness: contiguity and positive lengths for the example run's
metadata. -/
theorem meta_offsets_contiguous_witness :
    List.Chain' (fun a b => b.offset = a.offset + a.len) finRun2.2.offsets ∧
    List.Forall (fun o => 0 < o.len) finRun2.2.offsets :=
  meta_offsets_contiguous optsEx entriesEx finRun2.1 finRun2.2 rfl

theorem should_finish_block_zero (b : TableBuilder) (key : List Nat)
    (value : HummockValue) (hbs : b.options.block_size = 0)
    (hne : b.entry_offsets ≠ []) :
    b.should_finish_block key value = true := by
  rw [should_finish_block_spec, hbs]
  simp only [Bool.and_eq_true, decide_eq_true_eq]
  exact ⟨hne, by omega⟩

theorem add_options_eq (b : TableBuilder) (key : List Nat)
    (value : HummockValue) (b' : TableBuilder) (h : b.add key value = some b') :
    b'.options = b.options := by
  rw [TableBuilder.add, Option.bind_eq_some] at h
  obtain ⟨b1, hflush, hentry⟩ := h
  have h1 : b1.options = b.options := by
    rcases flushIfNeeded_eq_some b key value b1 hflush with ⟨_, rfl⟩ | ⟨_, _, rfl⟩ <;> rfl
  rw [addEntry_eq] at hentry
  by_cases hbk : b1.base_key = []
  · rw [if_pos hbk] at hentry
    obtain ⟨_, rfl⟩ := pushEntry_eq_some _ _ _ _ _ hentry
    exact h1
  · rw [if_neg hbk] at hentry
    obtain ⟨_, rfl⟩ := pushEntry_eq_some _ _ _ _ _ hentry
    exact h1

theorem add_one_per_block_step (b : TableBuilder) (key : List Nat)
    (value : HummockValue) (b' : TableBuilder)
    (hbs : b.options.block_size = 0) (hne : b.entry_offsets.length = 1)
    (h : b.add key value = some b') :
    b'.entry_offsets.length = 1 ∧
    b'.meta.offsets.length = b.meta.offsets.length + 1 := by
  have hnil : b.entry_offsets ≠ [] := by
    intro hemp; rw [hemp] at hne; cases hne
  have hsf : b.should_finish_block key value = true :=
    should_finish_block_zero b key value hbs hnil
  rw [TableBuilder.add, Option.bind_eq_some] at h
  obtain ⟨b1, hflush, hentry⟩ := h
  rcases flushIfNeeded_eq_some b key value b1 hflush with ⟨hs, rfl⟩ | ⟨_, _, hb1⟩
  · rw [hs] at hsf; cases hsf
  · have hbk : b1.base_key = [] := by rw [hb1]
    have hoff : b1.entry_offsets = [] := by rw [hb1]
    have hmeta : b1.meta.offsets.length = b.meta.offsets.length + 1 := by
      rw [hb1]; simp
    rw [addEntry_eq, if_pos hbk] at hentry
    obtain ⟨_, rfl⟩ := pushEntry_eq_some _ _ _ _ _ hentry
    constructor
    · simp [hoff]
    · simpa using hmeta

theorem addAll_one_per_block (entries : List (List Nat × HummockValue))
    (b b' : TableBuilder) (hbs : b.options.block_size = 0)
    (hne : b.entry_offsets.length = 1) (h : addAll b entries = some b') :
    b'.entry_offsets.length = 1 ∧
    b'.meta.offsets.length = b.meta.offsets.length + entries.length := by
  induction entries generalizing b with
  | nil =>
    have hb : b = b' := Option.some_inj.mp h
    rw [← hb]
    exact ⟨hne, by simp⟩
  | cons e rest ih =>
    obtain ⟨k, v⟩ := e
    rw [addAll] at h
    cases hadd : b.add k v with
    | none => rw [hadd] at h; exact Option.noConfusion h
    | some b1 =>
      rw [hadd] at h
      have hopts := add_options_eq b k v b1 hadd
      obtain ⟨h1, h2⟩ := add_one_per_block_step b k v b1 hbs hne hadd
      obtain ⟨g1, g2⟩ := ih b1 (by rw [hopts, hbs]) h1 h
      refine ⟨g1, ?_⟩
      rw [g2, h2]
      simp [List.length_cons]
      omega

theorem first_add_from_new (opts : TableBuilderOptions) (k : List Nat)
    (v : HummockValue) (b1 : TableBuilder)
    (h : (TableBuilder.new opts).add k v = some b1) :
    b1.entry_offsets.length = 1 ∧ b1.meta.offsets.length = 0 ∧
    b1.options = opts := by
  rw [TableBuilder.add, Option.bind_eq_some] at h
  obtain ⟨bf, hflush, hentry⟩ := h
  rcases flushIfNeeded_eq_some _ k v bf hflush with ⟨_, hb⟩ | ⟨_, hnemp, _⟩
  · subst hb
    rw [addEntry_eq,
      if_pos (show (TableBuilder.new opts).base_key = [] from rfl)] at hentry
    obtain ⟨_, rfl⟩ := pushEntry_eq_some _ _ _ _ _ hentry
    refine ⟨by simp [TableBuilder.new], by simp [TableBuilder.new], rfl⟩
  · exact absurd rfl hnemp

/-- C9: when the builder is configured with `block_size = 0`, every `add`
after the first entry of a block flushes, so after `n ≥ 1` adds `finish`
returns a non-empty byte string and metadata with exactly `n` block
descriptors — one entry per block. -/
theorem one_entry_per_block (opts : TableBuilderOptions)
    (entries : List (List Nat × HummockValue)) (b : TableBuilder)
    (hbs : opts.block_size = 0) (hne : entries ≠ [])
    (h : addAll (TableBuilder.new opts) entries = some b) :
    ∃ data meta, b.finish = some (data, meta) ∧ data ≠ [] ∧
      meta.offsets.length = entries.length := by
  cases entries with
  | nil => exact absurd rfl hne
  | cons e rest =>
    obtain ⟨k, v⟩ := e
    rw [addAll] at h
    cases hadd : (TableBuilder.new opts).add k v with
    | none => rw [hadd] at h; exact Option.noConfusion h
    | some b1 =>
      rw [hadd] at h
      obtain ⟨h1, h0, hopts⟩ := first_add_from_new opts k v b1 hadd
      obtain ⟨g1, g2⟩ := addAll_one_per_block rest b1 b
        (by rw [hopts]; exact hbs) h1 h
      have hoffne : b.entry_offsets ≠ [] := by
        intro hemp; rw [hemp] at g1; cases g1
      rw [TableBuilder.finish, finish_block_eq b hoffne]
      refine ⟨_, _, rfl, ?_, ?_⟩
      · show sealedBuf b ≠ []
        intro hnil
        have hlen := sealedBuf_length_ge b
        rw [hnil] at hlen
        simp at hlen
      · split
        · simp [g2, h0]
        · simp [g2, h0]

/-- C9 witness: one block per entry for the example two-entry run with
`block_size = 0`. -/
theorem one_entry_per_block_witness :
    ∃ data meta, bRun2.finish = some (data, meta) ∧ data ≠ [] ∧
      meta.offsets.length = entriesEx.length :=
  one_entry_per_block optsEx entriesEx bRun2 rfl (by decide) rfl
